import Mathlib

/-!
# Verification of the per-cell ionization/thermal convergence core

A shallow embedding, in Lean 4, of the two C source files of the repository:

* `src/ionization.c` — the per-cell orchestrator `ion_abundances`, the
  per-cell convergence monitor `convergence`, the global `check_convergence`
  scan, the ionization-update driver `one_shot`, the temperature solver
  `calc_te` with its stateful residual `zero_emit`, and the spectral-slope
  residual `sim_alpha_func`;
* `src/source/para_update.c` — the deterministic work partition
  `get_parallel_nrange` / `get_max_cells_per_rank` and the spectral
  collective `gather_extracted_spectrum`.

C `double` values are embedded as real numbers (`ℝ`); C `int` values as `ℤ`
or `ℕ`.  External physics callables (`nebular_concentrations`,
`macro_bb_heating`, `total_emission`, the Numerical-Recipes root finder
`zbrent`, …) are code of the repository that is not among the two files, so
they are abstracted as parameters of the embedding (bundled in `Ext`), and,
where a claim needs their concrete behaviour, modelled from the spec with a
doc comment saying so.
-/

namespace IonVerify

/-- The per-cell plasma state: the fields of the C `PlasmaPtr` structure that
`ionization.c` reads or writes.  Doubles become `ℝ`, ints become `ℤ`;
per-ion / per-band arrays become functions from the index.
The C fields `heat_lines_macro` and `heat_photo_macro` are embedded as
`heatLinesMacro` and `heatPhotoMacro`. -/
structure PState where
  t_e : ℝ
  t_r : ℝ
  t_e_old : ℝ
  t_r_old : ℝ
  dt_e : ℝ
  dt_e_old : ℝ
  gain : ℝ
  heat_tot : ℝ
  heat_lines : ℝ
  heatLinesMacro : ℝ
  heat_photo : ℝ
  heatPhotoMacro : ℝ
  lum_rad : ℝ
  lum_rad_old : ℝ
  lum_adiabatic : ℝ
  lum_dr : ℝ
  lum_comp : ℝ
  converge_t_r : ℝ
  converge_t_e : ℝ
  converge_hc : ℝ
  trcheck : ℤ
  techeck : ℤ
  hccheck : ℤ
  converge_whole : ℤ
  converging : ℤ
  ne : ℝ
  j : ℝ
  w : ℝ
  ave_freq : ℝ
  sim_alpha : ℕ → ℝ
  sim_w : ℕ → ℝ
  xj : ℕ → ℝ
  xave_freq : ℕ → ℝ
  nxtot : ℕ → ℤ

/-- The external callables consumed by `ionization.c` (they live in other
files of the repository).  Heating/cooling terms are functions of the trial
temperature for the cell under consideration; the abundance routines map a
cell state and a sub-mode to a new state and an int status; `zbrent` is the
bracketed root solver (it only sees function values, so it is modelled as a
functional); `sim_w_fn` is the C `sim_w` weight normalisation and
`sane_check` the float sanity test. -/
structure Ext where
  macro_bb_heating : ℝ → ℝ
  macro_bf_heating : ℝ → ℝ
  adiabatic_cooling : ℝ → ℝ
  total_dr : ℝ → ℝ
  total_comp : ℝ → ℝ
  total_emission : ℝ → ℝ
  zbrent : (ℝ → ℝ) → ℝ → ℝ → ℝ → ℝ
  nebular_concentrations : PState → ℤ → PState × ℤ
  fix_concentrations : PState → ℤ → PState × ℤ
  auger_ionization : PState → PState
  sim_w_fn : ℝ → ℝ → ℝ → ℝ → ℝ → ℝ → ℝ
  sane_check : ℝ → Bool

/-! ## zero_emit and calc_te (ionization.c lines 530–675) -/

/-- `zero_emit`: the stateful heating-minus-cooling residual.  It stores the
trial temperature in the cell, swaps the cached macro-atom heating terms for
their values at `t`, recomputes the adiabatic, dielectronic-recombination
and Compton cooling at `t`, and returns the updated cell together with
`heat_tot − lum_adiabatic − lum_dr − lum_comp − total_emission`. -/
noncomputable def zero_emit (E : Ext) (s : PState) (t : ℝ) : PState × ℝ :=
  let s1 : PState := { s with t_e := t }
  let s2 : PState := { s1 with
    heat_tot := s1.heat_tot - s1.heatLinesMacro + E.macro_bb_heating t
    heat_lines := s1.heat_lines - s1.heatLinesMacro + E.macro_bb_heating t
    heatLinesMacro := E.macro_bb_heating t }
  let s3 : PState := { s2 with
    heat_tot := s2.heat_tot - s2.heatPhotoMacro + E.macro_bf_heating t
    heat_photo := s2.heat_photo - s2.heatPhotoMacro + E.macro_bf_heating t
    heatPhotoMacro := E.macro_bf_heating t }
  let s4 : PState := { s3 with lum_adiabatic := E.adiabatic_cooling t }
  let s5 : PState := { s4 with lum_dr := E.total_dr t }
  let s6 : PState := { s5 with lum_comp := E.total_comp t }
  (s6, s6.heat_tot - s6.lum_adiabatic - s6.lum_dr - s6.lum_comp -
    E.total_emission t)

/-- The macro-atom-independent part of the cached total heating: invariant
under `zero_emit`, it makes the residual a well-defined function of the
trial temperature alone. -/
noncomputable def heatBase (s : PState) : ℝ :=
  s.heat_tot - s.heatLinesMacro - s.heatPhotoMacro

/-- The pure residual `h(t)` that `zero_emit` computes from any state with
the same `heatBase`: the spec's `h(t) = heating(t) − cooling(t)`. -/
noncomputable def hfun (E : Ext) (s : PState) : ℝ → ℝ := fun t =>
  heatBase s + E.macro_bb_heating t + E.macro_bf_heating t -
    E.adiabatic_cooling t - E.total_dr t - E.total_comp t -
    E.total_emission t

/-- The final block of `calc_te`: with the chosen temperature in place,
swap the cached macro-atom heating terms for their values at `t_e`. -/
noncomputable def calc_te_recompute (E : Ext) (s : PState) : PState :=
  let s1 : PState := { s with
    heat_tot := s.heat_tot - s.heatLinesMacro + E.macro_bb_heating s.t_e
    heat_lines := s.heat_lines - s.heatLinesMacro + E.macro_bb_heating s.t_e
    heatLinesMacro := E.macro_bb_heating s.t_e }
  { s1 with
    heat_tot := s1.heat_tot - s1.heatPhotoMacro + E.macro_bf_heating s1.t_e
    heat_photo := s1.heat_photo - s1.heatPhotoMacro + E.macro_bf_heating s1.t_e
    heatPhotoMacro := E.macro_bf_heating s1.t_e }

/-- `calc_te`: probes `zero_emit` at `tmin` and `tmax` (after storing the
probe temperature in the cell, as the source does); if the two residuals
straddle zero it stores the root `zbrent(zero_emit, tmin, tmax, 50)` in
`t_e`, otherwise it stores the endpoint with the smaller |residual|;
finally it recomputes the macro-atom heating at the chosen temperature and
returns the cell together with `t_e`.

The C `zbrent` receives the impure `zero_emit`; since the residual value
from any intermediate state is the pure function `hfun` (the `heatBase`
invariance proved below), the embedding passes the value function of
`zero_emit` from the current state.  The scratch cooling fields that
`zbrent`'s internal probes leave behind are not modelled. -/
noncomputable def calc_te (E : Ext) (s : PState) (tmin tmax : ℝ) :
    PState × ℝ :=
  let sA : PState := { s with t_e := tmin }
  let p1 := zero_emit E sA tmin
  let z1 := p1.2
  let sB : PState := { p1.1 with t_e := tmax }
  let p2 := zero_emit E sB tmax
  let z2 := p2.2
  let sC : PState :=
    if z1 * z2 < 0 then
      { p2.1 with t_e := E.zbrent (fun t => (zero_emit E p2.1 t).2) tmin tmax 50 }
    else if |z1| < |z2| then { p2.1 with t_e := tmin }
    else { p2.1 with t_e := tmax }
  let sD := calc_te_recompute E sC
  (sD, sD.t_e)

/-! ## convergence (ionization.c lines 276–325) -/

/-- `convergence`: per-cell convergence monitor.  Zeroes the three criterion
flags, computes the three normalised residuals against ε = 0.05, sets
`converge_whole` to the sum of the flags, runs the oscillation detector on
the two stored temperature deltas, and adapts the relaxation gain
(×0.7 floored at 0.1 when oscillating, ×1.1 capped at 0.8 otherwise).
Returns the updated cell and the C return value `whole_check`. -/
noncomputable def convergence (s0 : PState) : PState × ℤ :=
  let s1 : PState := { s0 with trcheck := 0, techeck := 0, hccheck := 0 }
  let ctr : ℝ := |s1.t_r_old - s1.t_r| / (s1.t_r_old + s1.t_r)
  let s2 : PState := { s1 with converge_t_r := ctr }
  let s3 : PState := if ctr > 0.05 then { s2 with trcheck := 1 } else s2
  let cte : ℝ := |s3.t_e_old - s3.t_e| / (s3.t_e_old + s3.t_e)
  let s4 : PState := { s3 with converge_t_e := cte }
  let s5 : PState := if cte > 0.05 then { s4 with techeck := 1 } else s4
  let chc : ℝ := |s5.heat_tot - (s5.lum_rad + s5.lum_adiabatic)| /
      (s5.heat_tot + s5.lum_rad + s5.lum_adiabatic)
  let s6 : PState := { s5 with converge_hc := chc }
  let s7 : PState := if chc > 0.05 then { s6 with hccheck := 1 } else s6
  let whole : ℤ := s7.trcheck + s7.techeck + s7.hccheck
  let s8 : PState := { s7 with converge_whole := whole }
  let conv : ℤ :=
    if s8.dt_e_old * s8.dt_e < 0 ∧ |s8.dt_e| > |s8.dt_e_old| then 1 else 0
  let s9 : PState := { s8 with converging := conv }
  let s10 : PState :=
    if conv = 1 then
      let g := s9.gain * 0.7
      { s9 with gain := if g < 0.1 then 0.1 else g }
    else
      let g := s9.gain * 1.1
      { s9 with gain := if g > 0.8 then 0.8 else g }
  (s10, whole)

/-! ## one_shot (ionization.c lines 425–495) -/

/-- `one_shot`: reads the gain, solves for the temperature on the bracket
`[0.7·t_e, 1.3·t_e]`, applies the damped update
`t_e := (1−gain)·te_old + gain·te_new`, translates driver mode 3 to
physics mode 2 (modes ≤ 1 and ≥ 6 are fatal, modelled as `none`), and, when
`t_r > 10`, calls the abundance routine (its status and the `ne` range check
are only logged) and returns 0; `t_r ≤ 10` is fatal (`none`). -/
noncomputable def one_shot (E : Ext) (s0 : PState) (mode : ℤ) :
    Option (PState × ℤ) :=
  let gain := s0.gain
  let te_old := s0.t_e
  let p := calc_te E s0 (0.7 * te_old) (1.3 * te_old)
  let s1 : PState := { p.1 with t_e := (1 - gain) * te_old + gain * p.2 }
  let mode2 : ℤ := if mode = 3 then 2 else mode
  if mode ≠ 3 ∧ (mode ≤ 1 ∨ 6 ≤ mode) then none
  else if s1.t_r > 10 then
    let q := E.nebular_concentrations s1 mode2
    some (q.1, 0)
  else none

/-! ## The mode-5 spectral fitter (ionization.c lines 125–185, 677–686) -/

/-- `sim_alpha_func`: the residual whose root is the power-law slope — the
analytic mean frequency of a truncated power law on
`[sim_numin, sim_numax]` minus the observed mean `sim_meanfreq`.  The C
globals become the first three arguments. -/
noncomputable def sim_alpha_func (sim_numin sim_numax sim_meanfreq alpha : ℝ) :
    ℝ :=
  ((alpha + 1) / (alpha + 2)) *
      ((sim_numax ^ (alpha + 2) - sim_numin ^ (alpha + 2)) /
        (sim_numax ^ (alpha + 1) - sim_numin ^ (alpha + 1))) -
    sim_meanfreq

/-- Termination of the bracket-widening `while` loop started from slope
estimate `alpha0`: some number `k` of unit widenings makes the residual
product at the endpoints nonpositive (the loop's exit condition). -/
def bracket_terminates (numin numax mf alpha0 : ℝ) : Prop :=
  ∃ k : ℕ, sim_alpha_func numin numax mf (alpha0 - 0.1 - k) *
      sim_alpha_func numin numax mf (alpha0 + 0.1 + k) ≤ 0

/-- The two clamping `if`s of the fitter: values above 3 become 3, then
values below −3 become −3. -/
noncomputable def rclamp3 (x : ℝ) : ℝ :=
  let x1 := if x > 3 then 3 else x
  if x1 < -3 then -3 else x1

/-- The frequency-band tables the fitter reads: the fine band edges
`xfreq[]`, and the coarse fallback edges `xband.f1[0]` and
`xband.f2[nbands−1]`; `nxfreq` is the number of bands. -/
structure BandTable where
  xfreq : ℕ → ℝ
  xband_f1_0 : ℝ
  xband_f2_last : ℝ
  nxfreq : ℕ

open Classical in
/-- The common tail of one pass of the mode-5 per-band loop, after the band
selection has set the globals `sim_numin`, `sim_numax`, `sim_meanfreq`, the
intensity `jv` and the (possibly pre-written) cell `s1`; `alpha0` is the
stored `sim_alpha[nx]` the bracket is centred on.  Widen the bracket
`[alpha0−0.1, alpha0+0.1]` by unit steps until the residual product is
nonpositive (`none` when the loop never exits), solve with `zbrent` at
tolerance 1e-5, clamp to `[−3, 3]`, compute the candidate weight, and
commit both candidates unless `sane_check` rejects the weight. -/
noncomputable def fit_band_with (E : Ext)
    (sim_numin sim_numax sim_meanfreq jv : ℝ) (s1 : PState) (alpha0 : ℝ)
    (nx : ℕ) : Option PState :=
  let alphamin : ℝ := alpha0 - 0.1
  let alphamax : ℝ := alpha0 + 0.1
  if h : ∃ k : ℕ,
      sim_alpha_func sim_numin sim_numax sim_meanfreq (alphamin - k) *
        sim_alpha_func sim_numin sim_numax sim_meanfreq (alphamax + k) ≤ 0 then
    let k := Nat.find h
    let alphatemp : ℝ := rclamp3 (E.zbrent
      (sim_alpha_func sim_numin sim_numax sim_meanfreq)
      (alphamin - k) (alphamax + k) 0.00001)
    let sim_w_temp : ℝ :=
      E.sim_w_fn (jv * 4 * Real.pi) 1 1 alphatemp sim_numin sim_numax
    if E.sane_check sim_w_temp then some s1
    else some { s1 with
      sim_alpha := Function.update s1.sim_alpha nx alphatemp
      sim_w := Function.update s1.sim_w nx sim_w_temp }
  else none

/-- One pass of the mode-5 per-band loop of `ion_abundances` for band `nx`:
when the band holds no photons, select the coarse band edges, the cell's
total `ave_freq` as target, `j := 0`, and force `sim_w[nx] := 0` before the
common fitting tail; otherwise select the band's own edges and
estimators. -/
noncomputable def fit_band (E : Ext) (B : BandTable) (s0 : PState) (nx : ℕ) :
    Option PState :=
  if s0.nxtot nx = 0 then
    fit_band_with E B.xband_f1_0 B.xband_f2_last s0.ave_freq 0
      { s0 with sim_w := Function.update s0.sim_w nx 0 } (s0.sim_alpha nx) nx
  else
    fit_band_with E (B.xfreq nx) (B.xfreq (nx + 1)) (s0.xave_freq nx)
      (s0.xj nx) s0 (s0.sim_alpha nx) nx

/-- The fitter's `for` loop over bands `0, …, n−1`, threading the cell state
and diverging (`none`) as soon as one band's widening loop diverges. -/
noncomputable def fit_bands_up (E : Ext) (B : BandTable) (s : PState) :
    ℕ → Option PState
  | 0 => some s
  | n + 1 => (fit_bands_up E B s n).bind fun s2 => fit_band E B s2 n

/-! ## ion_abundances (ionization.c lines 54–249) -/

/-- The history shift performed by modes 3 and 5, in the source's assignment
order (`dt_e` is computed from the not-yet-overwritten `t_e_old` — "Must
store this before others"). -/
noncomputable def shift_history (s : PState) : PState :=
  let s1 : PState := { s with dt_e_old := s.dt_e }
  let s2 : PState := { s1 with dt_e := s1.t_e - s1.t_e_old }
  let s3 : PState := { s2 with t_e_old := s2.t_e }
  let s4 : PState := { s3 with t_r_old := s3.t_r }
  { s4 with lum_rad_old := s4.lum_rad }

/-- The trailing Auger pass of `ion_abundances`, run only when
`geo.auger_ionization == 1`. -/
noncomputable def auger_step (E : Ext) (auger_flag : Bool) (s : PState) :
    PState :=
  if auger_flag then E.auger_ionization s else s

/-- `ion_abundances`: the mode-selected per-cell orchestrator.  Modes 0, 1,
2, 4 call an abundance routine and return its status; mode 3 shifts the
history, runs `one_shot(·, 3)` and then `convergence`; mode 5 first runs the
spectral fitter over all bands, then shifts the history, runs
`one_shot(·, 5)` and `convergence`.  Unknown modes are fatal (`none`);
whatever the mode, a final Auger pass runs when the flag is set, and the
stored status `ireturn` is returned. -/
noncomputable def ion_abundances (E : Ext) (B : BandTable) (auger_flag : Bool)
    (s0 : PState) (mode : ℤ) : Option (PState × ℤ) :=
  if mode = 0 then
    let q := E.nebular_concentrations s0 2
    some (auger_step E auger_flag q.1, q.2)
  else if mode = 1 then
    let q := E.nebular_concentrations s0 1
    some (auger_step E auger_flag q.1, q.2)
  else if mode = 2 then
    let q := E.fix_concentrations s0 0
    some (auger_step E auger_flag q.1, q.2)
  else if mode = 3 then
    let s1 : PState := { s0 with dt_e_old := s0.dt_e }
    let s2 : PState := { s1 with dt_e := s1.t_e - s1.t_e_old }
    let s3 : PState := { s2 with t_e_old := s2.t_e }
    let s4 : PState := { s3 with t_r_old := s3.t_r }
    let s5 : PState := { s4 with lum_rad_old := s4.lum_rad }
    (one_shot E s5 3).map fun q =>
      (auger_step E auger_flag (convergence q.1).1, q.2)
  else if mode = 4 then
    let q := E.nebular_concentrations s0 5
    some (auger_step E auger_flag q.1, q.2)
  else if mode = 5 then
    (fit_bands_up E B s0 B.nxfreq).bind fun sf =>
      let s1 : PState := { sf with dt_e_old := sf.dt_e }
      let s2 : PState := { s1 with dt_e := s1.t_e - s1.t_e_old }
      let s3 : PState := { s2 with t_e_old := s2.t_e }
      let s4 : PState := { s3 with t_r_old := s3.t_r }
      let s5 : PState := { s4 with lum_rad_old := s4.lum_rad }
      (one_shot E s5 5).map fun q =>
        (auger_step E auger_flag (convergence q.1).1, q.2)
  else none

/-! ## An IEEE-style value domain for the fitter's commit step -/

/-- An IEEE-double-like value domain: a finite (exact) value, the two
infinities, or NaN.  Used to state the finiteness property of the fitter's
commit step; comparisons involving NaN are false, as in C. -/
inductive FP where
  | fin : ℚ → FP
  | pinf : FP
  | minf : FP
  | nan : FP
deriving DecidableEq

/-- Whether a value is finite. -/
def FP.isFinite : FP → Bool
  | .fin _ => true
  | _ => false

/-- The C comparison `x > c` against a finite constant: false on NaN. -/
def FP.gtQ : FP → ℚ → Bool
  | .fin x, c => decide (c < x)
  | .pinf, _ => true
  | .minf, _ => false
  | .nan, _ => false

/-- The C comparison `x < c` against a finite constant: false on NaN. -/
def FP.ltQ : FP → ℚ → Bool
  | .fin x, c => decide (x < c)
  | .pinf, _ => false
  | .minf, _ => true
  | .nan, _ => false

/-- Modelled from the spec: `sane_check(x)` (code of the repository that is
not under src/) "returns true iff `x` is non-finite or otherwise
unusable". -/
def sane_check_fp (x : FP) : Bool := !x.isFinite

/-- The fitter's clamp over `FP`, following the two C `if`s with IEEE
comparison semantics: `+inf` clamps to 3, `−inf` to −3, NaN fails both
tests and passes through. -/
def fp_clamp3 (a : FP) : FP :=
  let a1 := if a.gtQ 3 then FP.fin 3 else a
  if a1.ltQ (-3) then FP.fin (-3) else a1

/-- The commit step of the fitter (ionization.c lines 162–181) over `FP`:
clamp the raw solver output, form the candidate weight via `simw` (the
`sim_w` call with everything but the slope fixed), then either keep the
previous `(sim_alpha[b], sim_w[b])` pair — when `sane_check` rejects the
weight — or commit the candidate pair. -/
def commit_band (simw : FP → FP) (alpha0 w0 araw : FP) : FP × FP :=
  let alphatemp := fp_clamp3 araw
  let sim_w_temp := simw alphatemp
  if sane_check_fp sim_w_temp then (alpha0, w0) else (alphatemp, sim_w_temp)

/-! ## Spec-modelled externals for the closed theorems -/

/-- Modelled from the spec: the bracketed root solver (`find_root`/`zbrent`,
Numerical-Recipes code of the repository that is not under src/).  Its
contract combines bisection with a superlinear step; the acceleration
affects only speed, so the model bisects a fixed 60 times, far below the
tolerances its callers request. -/
noncomputable def find_root_bisect (f : ℝ → ℝ) : ℕ → ℝ → ℝ → ℝ
  | 0, a, b => (a + b) / 2
  | n + 1, a, b =>
      let m := (a + b) / 2
      if f a * f m ≤ 0 then find_root_bisect f n a m
      else find_root_bisect f n m b

/-- Modelled from the spec: `zbrent(f, a, b, tol)` as the bisection model. -/
noncomputable def zbrent_model (f : ℝ → ℝ) (a b tol : ℝ) : ℝ :=
  find_root_bisect f 60 a b

/-- Modelled from the spec: `sim_w(j, vol, fraction, alpha, numin, numax)`
(code of the repository not under src/) "computes the weight W by a
closed-form normalisation of 4π·j over [numin, numax] with the fitted
slope" — in particular, it is linear in its first argument. -/
noncomputable def sim_w_model (jarg vol fraction alpha numin numax : ℝ) : ℝ :=
  jarg / (4 * Real.pi * vol * fraction) *
    ((alpha + 1) / (numax ^ (alpha + 1) - numin ^ (alpha + 1)))

/-- Modelled from the spec: `sane_check` over the real-number embedding —
every real value is finite, so nothing is rejected. -/
def sane_check_model : ℝ → Bool := fun _ => false

/-! ## check_convergence (ionization.c lines 355–392) -/

/-- The five per-cell fields `check_convergence` reads from `plasmamain[n]`. -/
structure ConvCell where
  converge_whole : ℤ
  trcheck : ℤ
  techeck : ℤ
  hccheck : ℤ
  converging : ℤ
deriving DecidableEq

/-- The counters of `check_convergence` together with the two reported
fractions.  In the C source `nconverge`, `nconverging` and `ntot` are
initialised to 0, while `ntr`, `nte` and `nhc` are declared but never
initialised. -/
structure CheckCounts where
  nconverge : ℤ
  nconverging : ℤ
  ntot : ℤ
  ntr : ℤ
  nte : ℤ
  nhc : ℤ
  xconverge : ℚ
  xconverging : ℚ
deriving DecidableEq

/-- One pass of the `for (n = 0; n < NPLASMA; n++)` loop body of
`check_convergence`. -/
def check_convergence_step (a : CheckCounts) (c : ConvCell) : CheckCounts :=
  { a with
    ntot := a.ntot + 1
    nconverge := if c.converge_whole = 0 then a.nconverge + 1 else a.nconverge
    ntr := if c.trcheck = 0 then a.ntr + 1 else a.ntr
    nte := if c.techeck = 0 then a.nte + 1 else a.nte
    nhc := if c.hccheck = 0 then a.nhc + 1 else a.nhc
    nconverging := if c.converging = 0 then a.nconverging + 1 else a.nconverging }

/-- `check_convergence`: scans all plasma cells and reports the convergence
counts, then returns 0.  The cells are passed as the list `plasmamain`;
`ntr0`, `nte0`, `nhc0` are the (indeterminate) initial contents of the C
locals `ntr`, `nte`, `nhc`, which the source never initialises.  The
fractions divide by `ntot` in rational arithmetic. -/
def check_convergence (plasmamain : List ConvCell) (ntr0 nte0 nhc0 : ℤ) :
    CheckCounts × ℤ :=
  let a0 : CheckCounts :=
    { nconverge := 0, nconverging := 0, ntot := 0
      ntr := ntr0, nte := nte0, nhc := nhc0, xconverge := 0, xconverging := 0 }
  let a := plasmamain.foldl check_convergence_step a0
  let a2 := { a with
    xconverge := (a.nconverge : ℚ) / (a.ntot : ℚ)
    xconverging := (a.nconverging : ℚ) / (a.ntot : ℚ) }
  (a2, 0)

/-- A fully converged cell record (all criteria met). -/
def convergedCell : ConvCell :=
  { converge_whole := 0, trcheck := 0, techeck := 0, hccheck := 0,
    converging := 0 }

/-- A concrete cell state with every field zero: the base point for the
concrete cells used in the closed theorems below. -/
noncomputable def zeroState : PState :=
  { t_e := 0, t_r := 0, t_e_old := 0, t_r_old := 0, dt_e := 0, dt_e_old := 0
    gain := 0, heat_tot := 0, heat_lines := 0, heatLinesMacro := 0
    heat_photo := 0, heatPhotoMacro := 0, lum_rad := 0, lum_rad_old := 0
    lum_adiabatic := 0, lum_dr := 0, lum_comp := 0
    converge_t_r := 0, converge_t_e := 0, converge_hc := 0
    trcheck := 0, techeck := 0, hccheck := 0, converge_whole := 0
    converging := 0, ne := 0, j := 0, w := 0, ave_freq := 0
    sim_alpha := fun _ => 0, sim_w := fun _ => 0, xj := fun _ => 0
    xave_freq := fun _ => 0, nxtot := fun _ => 0 }

/-- Concrete oscillating cell with out-of-range gain 10: input of the C3
counterexample. -/
noncomputable def gainTenState : PState :=
  { zeroState with dt_e_old := 1, dt_e := -2, gain := 10 }

/-- Concrete oscillating cell with in-range gain 0.5: input of the C3
witness. -/
noncomputable def gainHalfState : PState :=
  { zeroState with dt_e_old := 1, dt_e := -2, gain := 0.5 }

/-- Concrete externals: zero heating/cooling, the spec-modelled solver,
weight and sanity check, and an abundance routine that always reports
status 1. -/
noncomputable def extStatusOne : Ext :=
  { macro_bb_heating := fun _ => 0
    macro_bf_heating := fun _ => 0
    adiabatic_cooling := fun _ => 0
    total_dr := fun _ => 0
    total_comp := fun _ => 0
    total_emission := fun _ => 0
    zbrent := zbrent_model
    nebular_concentrations := fun s _ => (s, 1)
    fix_concentrations := fun s _ => (s, 0)
    auger_ionization := fun s => s
    sim_w_fn := sim_w_model
    sane_check := sane_check_model }

/-- A trivial band table with no bands. -/
noncomputable def bandNone : BandTable :=
  { xfreq := fun _ => 0, xband_f1_0 := 0, xband_f2_last := 0, nxfreq := 0 }

/-- A band table whose coarse fallback band is `[1, 2]`. -/
noncomputable def bandOneTwo : BandTable :=
  { xfreq := fun _ => 0, xband_f1_0 := 1, xband_f2_last := 2, nxfreq := 1 }

/-- Concrete cell with `t_r = 100`, so `one_shot` takes its normal branch:
input of the C6 counterexample. -/
noncomputable def tr100State : PState :=
  { zeroState with t_e := 1, t_r := 100 }

/-- Concrete cell with an empty band 0, stored slope 10 and weight 5, and a
total mean frequency 3/2 inside the coarse band `[1, 2]`: input of the C4
closed theorems. -/
noncomputable def emptyBandState : PState :=
  { zeroState with
    nxtot := fun _ => 0
    sim_alpha := fun _ => 10
    sim_w := fun _ => 5
    ave_freq := 3 / 2 }

/-! ## get_parallel_nrange / get_max_cells_per_rank (para_update.c 38–87) -/

/-- The out-parameters and return value of `get_parallel_nrange`. -/
structure NRange where
  my_nmin : ℕ
  my_nmax : ℕ
  ndo : ℕ
deriving DecidableEq

/-- `get_parallel_nrange`: splits `ntotal` tasks over `nproc` ranks.
`num_mpi_cells = floor(ntotal/nproc)` (the C source computes the floor of an
exact double quotient); `num_mpi_extra` is the remainder.  Note that the C
source uses the global `rank_global`, not the `rank` parameter, inside the
`rank < num_mpi_extra` branch; the embedding keeps both, exactly as in the
source. -/
def get_parallel_nrange (rank rank_global ntotal nproc : ℕ) : NRange :=
  let num_mpi_cells := ntotal / nproc
  let num_mpi_extra := ntotal - nproc * num_mpi_cells
  let nmin := if rank < num_mpi_extra then rank_global * (num_mpi_cells + 1)
    else num_mpi_extra * (num_mpi_cells + 1) + (rank - num_mpi_extra) * num_mpi_cells
  let nmax := if rank < num_mpi_extra then (rank_global + 1) * (num_mpi_cells + 1)
    else num_mpi_extra * (num_mpi_cells + 1) + (rank - num_mpi_extra + 1) * num_mpi_cells
  { my_nmin := nmin, my_nmax := nmax, ndo := nmax - nmin }

/-- The range rank `r` obtains in the program: each rank calls
`get_parallel_nrange` with `rank` set from the global `rank_global`, i.e.
with `rank = rank_global = r`. -/
def rank_range (ntotal nproc r : ℕ) : NRange :=
  get_parallel_nrange r r ntotal nproc

/-- `get_max_cells_per_rank`: `ceil(n_total / np_mpi_global)` computed on the
exact rational quotient (the C source takes `ceil` of a double quotient). -/
def get_max_cells_per_rank (n_total np_mpi_global : ℕ) : ℤ :=
  ⌈(n_total : ℚ) / (np_mpi_global : ℚ)⌉

/-- Specification-side ladder of partition boundaries: `nminF N P r` is the
left endpoint of rank `r`'s range (and `nminF N P (r+1)` its right
endpoint), written with `N % P` for the remainder. -/
def nminF (ntotal nproc r : ℕ) : ℕ :=
  let q := ntotal / nproc
  let s := ntotal % nproc
  if r < s then r * (q + 1) else s * (q + 1) + (r - s) * q

/-! ## gather_extracted_spectrum (para_update.c 138–190) -/

/-- The four spectral accumulator arrays of one `xxspec[mpi_j]` record, each
indexed by the wavelength bin `mpi_i`. -/
@[ext]
structure XSpec where
  f : ℕ → ℝ
  lf : ℕ → ℝ
  f_wind : ℕ → ℝ
  lf_wind : ℕ → ℝ

/-- The send buffer `redhelper` one rank fills from its local `xxspec` array
`x` (indexed by spectrum number): entry `i*nspec + j + k*NWAVE_MAX*nspec`
holds array `k`'s value at spectrum `j`, bin `i`, pre-divided by the rank
count `P`.  Entries beyond the buffer are the `calloc` zeros. -/
noncomputable def redhelper (nspec nwave p : ℕ) (x : ℕ → XSpec) : ℕ → ℝ :=
  fun idx =>
    if idx < 4 * nwave * nspec then
      (let k := idx / (nwave * nspec)
       let rem := idx % (nwave * nspec)
       let i := rem / nspec
       let j := rem % nspec
       if k = 0 then (x j).f i
       else if k = 1 then (x j).lf i
       else if k = 2 then (x j).f_wind i
       else (x j).lf_wind i) / (p : ℝ)
    else 0

/-- `gather_extracted_spectrum`: every rank packs its spectra pre-divided by
`P` into `redhelper`; `MPI_Reduce(..., MPI_SUM, 0, ...)` sums the buffers on
rank 0 and `MPI_Bcast` hands the sum `red2` back to every rank; each rank
then unpacks `red2` into its `xxspec` entries for `i < NWAVE_MAX` and
`j < nspec` (other entries are untouched by the loops). -/
noncomputable def gather_extracted_spectrum (nspec nwave p : ℕ)
    (inp : Fin p → ℕ → XSpec) : Fin p → ℕ → XSpec :=
  let red2 : ℕ → ℝ := fun idx => ∑ r : Fin p, redhelper nspec nwave p (inp r) idx
  fun r j =>
    { f := fun i => if i < nwave ∧ j < nspec then
        red2 (i * nspec + j) else (inp r j).f i
      lf := fun i => if i < nwave ∧ j < nspec then
        red2 (i * nspec + j + nwave * nspec) else (inp r j).lf i
      f_wind := fun i => if i < nwave ∧ j < nspec then
        red2 (i * nspec + j + 2 * nwave * nspec) else (inp r j).f_wind i
      lf_wind := fun i => if i < nwave ∧ j < nspec then
        red2 (i * nspec + j + 3 * nwave * nspec) else (inp r j).lf_wind i }

end IonVerify

namespace IonVerify

/-- The value returned by one probe of `zero_emit` is the pure residual
`hfun` of the probed state — the statefulness does not leak into the
value. -/
theorem zero_emit_val (E : Ext) (s : PState) (t : ℝ) :
    (zero_emit E s t).2 = hfun E s t := by
  simp only [zero_emit, hfun, heatBase]
  ring

/-- `zero_emit` leaves the macro-atom-independent heating `heatBase`
unchanged: successive probes all see the same residual function. -/
theorem zero_emit_base (E : Ext) (s : PState) (t : ℝ) :
    heatBase (zero_emit E s t).1 = heatBase s := by
  simp only [zero_emit, heatBase]
  ring

/-- Storing a trial temperature does not change `heatBase`. -/
theorem heatBase_set_te (s : PState) (x : ℝ) :
    heatBase { s with t_e := x } = heatBase s := rfl

/-- C1: for every cell and every bracket `[tmin, tmax]`, `calc_te` evaluates
the residual `h` at `tmin` and at `tmax`; if the two values straddle zero it
returns the root found by the bracketed solver on `[tmin, tmax]` with
tolerance 50 K, and otherwise it returns `tmin` when `|h(tmin)| < |h(tmax)|`
and `tmax` otherwise; the returned temperature is also stored in the cell's
`t_e`. -/
theorem calc_te_spec (E : Ext) (s : PState) (tmin tmax : ℝ) :
    (calc_te E s tmin tmax).2 =
      (if hfun E s tmin * hfun E s tmax < 0 then
        E.zbrent (hfun E s) tmin tmax 50
      else if |hfun E s tmin| < |hfun E s tmax| then tmin else tmax) ∧
    (calc_te E s tmin tmax).1.t_e = (calc_te E s tmin tmax).2 := by
  constructor
  · simp only [calc_te, calc_te_recompute, zero_emit_val, apply_ite PState.t_e]
    simp only [hfun, zero_emit_base, heatBase_set_te]
    rfl
  · simp only [calc_te, calc_te_recompute]

/-- `calc_te` never touches the radiation temperature. -/
theorem calc_te_t_r (E : Ext) (s : PState) (tmin tmax : ℝ) :
    (calc_te E s tmin tmax).1.t_r = s.t_r := by
  simp only [calc_te, calc_te_recompute, zero_emit, apply_ite PState.t_r,
    ite_self]

/-- Whenever `one_shot` returns at all, its return value is the literal 0 of
its `return (0)` — the abundance routine's status is checked, logged and
dropped. -/
theorem one_shot_ret_zero (E : Ext) (s : PState) (m : ℤ) :
    (one_shot E s m).all (fun q => q.2 == 0) = true := by
  simp only [one_shot]
  split_ifs <;> rfl

/-- In mode 3 with `t_r > 10`, `one_shot` returns normally, with value 0. -/
theorem one_shot_mode3_map_snd (E : Ext) (s : PState) (h : s.t_r > 10) :
    (one_shot E s 3).map Prod.snd = some 0 := by
  simp only [one_shot]
  split_ifs with h1 h2
  · exact absurd h1 (by norm_num)
  · rfl
  · exfalso
    simp only [calc_te_t_r] at h2
    exact h2 h

/-- The mode-3 branch of `ion_abundances` is exactly: shift the history,
run `one_shot`, run `convergence` on its result, then the optional Auger
pass, returning `one_shot`'s status. -/
theorem ion_abundances_mode3_eq (E : Ext) (B : BandTable) (g : Bool)
    (s : PState) :
    ion_abundances E B g s 3 =
      (one_shot E (shift_history s) 3).map
        (fun q => (auger_step E g (convergence q.1).1, q.2)) := by
  norm_num [ion_abundances, shift_history]

/-- The mode-5 branch of `ion_abundances` is exactly: run the spectral
fitter over all bands, shift the history of the fitted state, run
`one_shot`, run `convergence` on its result, then the optional Auger
pass. -/
theorem ion_abundances_mode5_eq (E : Ext) (B : BandTable) (g : Bool)
    (s : PState) :
    ion_abundances E B g s 5 =
      (fit_bands_up E B s B.nxfreq).bind (fun sf =>
        (one_shot E (shift_history sf) 5).map
          (fun q => (auger_step E g (convergence q.1).1, q.2))) := by
  norm_num [ion_abundances, shift_history]

/-- The convergence/Auger post-pass keeps the status component. -/
theorem map_conv_all (E : Ext) (g : Bool) (o : Option (PState × ℤ))
    (h : o.all (fun q => q.2 == 0) = true) :
    (o.map (fun q => (auger_step E g (convergence q.1).1, q.2))).all
      (fun q => q.2 == 0) = true := by
  cases o with
  | none => rfl
  | some q => simpa using h

/-- An `Option.bind` whose continuation always satisfies the status
predicate satisfies it as well. -/
theorem option_bind_all {α : Type} (o : Option α)
    (f : α → Option (PState × ℤ))
    (h : ∀ x, (f x).all (fun q => q.2 == 0) = true) :
    (o.bind f).all (fun q => q.2 == 0) = true := by
  cases o with
  | none => rfl
  | some x => exact h x

/-- C2: in mode 3 (and likewise in mode 5 after the spectral fit),
`ion_abundances` shifts the history exactly as the simultaneous assignments
`t_e_old ← t_e`, `dt_e_old ← dt_e`, `dt_e ← t_e − t_e_old`,
`t_r_old ← t_r`, `lum_rad_old ← lum_rad` (all right-hand sides read the
pre-shift state), and the shifted state is the one handed to `one_shot`,
which completes before `convergence` is checked. -/
theorem ion_abundances_history_shift (E : Ext) (B : BandTable) (g : Bool)
    (s : PState) :
    (shift_history s).t_e_old = s.t_e ∧
    (shift_history s).dt_e_old = s.dt_e ∧
    (shift_history s).dt_e = s.t_e - s.t_e_old ∧
    (shift_history s).t_r_old = s.t_r ∧
    (shift_history s).lum_rad_old = s.lum_rad ∧
    ion_abundances E B g s 3 =
      (one_shot E (shift_history s) 3).map
        (fun q => (auger_step E g (convergence q.1).1, q.2)) ∧
    ion_abundances E B g s 5 =
      (fit_bands_up E B s B.nxfreq).bind (fun sf =>
        (one_shot E (shift_history sf) 5).map
          (fun q => (auger_step E g (convergence q.1).1, q.2))) :=
  ⟨rfl, rfl, rfl, rfl, rfl, ion_abundances_mode3_eq E B g s,
    ion_abundances_mode5_eq E B g s⟩

/-- C6 (counterexample): the claim says `ion_abundances` returns the status
produced by the abundance routine also in the `one_shot` modes 3 and 5.
With an abundance routine that always reports status 1 and a cell with
`t_r = 100`, mode 3 returns 0: `one_shot` ends in `return (0)` and its
value, not the abundance status, is what `ion_abundances` stores in
`ireturn`. -/
theorem ion_abundances_swallows_status_cex :
    (ion_abundances extStatusOne bandNone false tr100State 3).map Prod.snd =
        some 0 ∧
      (extStatusOne.nebular_concentrations tr100State 2).2 = 1 ∧
      (0 : ℤ) ≠ 1 := by
  refine ⟨?_, rfl, by decide⟩
  rw [ion_abundances_mode3_eq, Option.map_map]
  have h : (shift_history tr100State).t_r > 10 := by
    norm_num [shift_history, tr100State, zeroState]
  exact one_shot_mode3_map_snd extStatusOne (shift_history tr100State) h

/-- C6 (amended): `ion_abundances` returns the status of the abundance
routine it invoked in modes 0, 1, 2 and 4; in the `one_shot` modes 3 and 5
it returns `one_shot`'s return value instead, which is 0 whenever
`one_shot` returns, regardless of the abundance routine's status. -/
theorem ion_abundances_return_amended (E : Ext) (B : BandTable) (g : Bool)
    (s : PState) :
    (ion_abundances E B g s 0).map Prod.snd =
        some (E.nebular_concentrations s 2).2 ∧
    (ion_abundances E B g s 1).map Prod.snd =
        some (E.nebular_concentrations s 1).2 ∧
    (ion_abundances E B g s 2).map Prod.snd =
        some (E.fix_concentrations s 0).2 ∧
    (ion_abundances E B g s 4).map Prod.snd =
        some (E.nebular_concentrations s 5).2 ∧
    (ion_abundances E B g s 3).all (fun q => q.2 == 0) = true ∧
    (ion_abundances E B g s 5).all (fun q => q.2 == 0) = true := by
  refine ⟨by norm_num [ion_abundances], by norm_num [ion_abundances],
    by norm_num [ion_abundances], by norm_num [ion_abundances], ?_, ?_⟩
  · rw [ion_abundances_mode3_eq]
    exact map_conv_all E g _ (one_shot_ret_zero E _ 3)
  · rw [ion_abundances_mode5_eq]
    exact option_bind_all _ _
      (fun sf => map_conv_all E g _ (one_shot_ret_zero E _ 5))

/-- The `converging` flag written by `convergence` is exactly the oscillation
detector on the two stored temperature deltas. -/
theorem convergence_converging_eq (s0 : PState) :
    (convergence s0).1.converging =
      if s0.dt_e_old * s0.dt_e < 0 ∧ |s0.dt_e| > |s0.dt_e_old| then 1 else 0 := by
  simp only [convergence, apply_ite PState.converging, apply_ite PState.dt_e,
    apply_ite PState.dt_e_old, apply_ite PState.gain, ite_self]

/-- The gain written by `convergence`, as a function of the incoming state. -/
theorem convergence_gain_eq (s0 : PState) :
    (convergence s0).1.gain =
      if s0.dt_e_old * s0.dt_e < 0 ∧ |s0.dt_e| > |s0.dt_e_old| then
        (if s0.gain * 0.7 < 0.1 then 0.1 else s0.gain * 0.7)
      else
        (if s0.gain * 1.1 > 0.8 then 0.8 else s0.gain * 1.1) := by
  by_cases hP : s0.dt_e_old * s0.dt_e < 0 ∧ |s0.dt_e| > |s0.dt_e_old|
  · simp only [convergence, apply_ite PState.converging, apply_ite PState.dt_e,
      apply_ite PState.dt_e_old, apply_ite PState.gain, ite_self, if_pos hP]
    norm_num
  · simp only [convergence, apply_ite PState.converging, apply_ite PState.dt_e,
      apply_ite PState.dt_e_old, apply_ite PState.gain, ite_self, if_neg hP]
    norm_num

/-- C3 (counterexample): the claim asserts the gain lies in [0.1, 0.8] after
every call to `convergence`; on the cell `gainTenState` (oscillating deltas,
incoming gain 10) the code multiplies by 0.7 and clamps only from below,
leaving gain 7 > 0.8. -/
theorem convergence_gain_escapes_cex :
    (convergence gainTenState).1.gain = 7 ∧
      ¬(0.1 ≤ (convergence gainTenState).1.gain ∧
        (convergence gainTenState).1.gain ≤ 0.8) := by
  have h : (convergence gainTenState).1.gain = 7 := by
    show (if _ then _ else _ : PState).gain = 7
    norm_num [convergence, gainTenState, zeroState, abs_of_nonneg, abs_of_nonpos]
  exact ⟨h, by rw [h]; norm_num⟩

/-- C3 (amended): after every call to `convergence`, `converging = 1` iff the
two stored deltas have opposite signs and the latest is larger in magnitude;
when oscillating the new gain is `max 0.1 (0.7·gain)`, otherwise
`min 0.8 (1.1·gain)`; and, provided the incoming gain already lies in
[0.1, 0.8], the outgoing gain lies in [0.1, 0.8] as well. -/
theorem convergence_gain_law (s : PState)
    (hg1 : 0.1 ≤ s.gain) (hg2 : s.gain ≤ 0.8) :
    ((convergence s).1.converging = 1 ↔
      (s.dt_e_old * s.dt_e < 0 ∧ |s.dt_e| > |s.dt_e_old|)) ∧
    ((convergence s).1.converging = 1 →
      (convergence s).1.gain = max 0.1 (s.gain * 0.7)) ∧
    ((convergence s).1.converging = 0 →
      (convergence s).1.gain = min 0.8 (s.gain * 1.1)) ∧
    (0.1 ≤ (convergence s).1.gain ∧ (convergence s).1.gain ≤ 0.8) := by
  rw [convergence_converging_eq, convergence_gain_eq]
  by_cases hP : s.dt_e_old * s.dt_e < 0 ∧ |s.dt_e| > |s.dt_e_old|
  · simp only [if_pos hP]
    have hmax : (if s.gain * 0.7 < 0.1 then (0.1 : ℝ) else s.gain * 0.7) =
        max 0.1 (s.gain * 0.7) := by
      rcases lt_or_le (s.gain * 0.7) 0.1 with h | h
      · rw [if_pos h, max_eq_left h.le]
      · rw [if_neg (not_lt.mpr h), max_eq_right h]
    refine ⟨by simp [hP], fun _ => hmax, fun h0 => absurd h0 (by norm_num), ?_⟩
    rw [hmax]
    constructor
    · exact le_max_left _ _
    · exact max_le (by norm_num) (by nlinarith)
  · simp only [if_neg hP]
    have hmin : (if s.gain * 1.1 > 0.8 then (0.8 : ℝ) else s.gain * 1.1) =
        min 0.8 (s.gain * 1.1) := by
      rcases lt_or_le 0.8 (s.gain * 1.1) with h | h
      · rw [if_pos h, min_eq_left h.le]
      · rw [if_neg (not_lt.mpr h), min_eq_right h]
    refine ⟨by simp [hP], fun h1 => absurd h1 (by norm_num), fun _ => hmin, ?_⟩
    rw [hmin]
    constructor
    · exact le_min (by norm_num) (by nlinarith)
    · exact min_le_left _ _

/-- C9: `check_convergence` is meant to report the exact per-criterion counts,
but the C locals `ntr`, `nte`, `nhc` are never initialised.  Run on two fully
converged cells with stack garbage 7 in each of the three counters, the code
reports `ntr = 9` while the exact count of cells with `trcheck == 0` is 2
(`nconverge` and `nconverging`, which are initialised, are exact, and the
function does return 0). -/
theorem check_convergence_uninit_counters :
    (check_convergence [convergedCell, convergedCell] 7 7 7).1.ntr = 9 ∧
      ([convergedCell, convergedCell].countP (fun c => c.trcheck == 0) = 2) ∧
      (9 : ℤ) ≠ 2 ∧
      (check_convergence [convergedCell, convergedCell] 7 7 7).1.nconverge = 2 ∧
      (check_convergence [convergedCell, convergedCell] 7 7 7).1.nconverging = 2 ∧
      (check_convergence [convergedCell, convergedCell] 7 7 7).2 = 0 := by
  refine ⟨?_, by decide, by decide, ?_, ?_, rfl⟩ <;>
    simp [check_convergence, check_convergence_step, convergedCell]

/-- C3 (witness): the amended gain law applied to a concrete oscillating
cell (`dt_e_old = 1`, `dt_e = -2`) whose incoming gain 0.5 lies in
[0.1, 0.8]. -/
theorem convergence_gain_law_witness :
    (0.1 ≤ (gainHalfState).gain ∧ (gainHalfState).gain ≤ 0.8) ∧
    (((convergence gainHalfState).1.converging = 1 ↔
        (gainHalfState.dt_e_old * gainHalfState.dt_e < 0 ∧
          |gainHalfState.dt_e| > |gainHalfState.dt_e_old|)) ∧
      ((convergence gainHalfState).1.converging = 1 →
        (convergence gainHalfState).1.gain =
          max 0.1 (gainHalfState.gain * 0.7)) ∧
      ((convergence gainHalfState).1.converging = 0 →
        (convergence gainHalfState).1.gain =
          min 0.8 (gainHalfState.gain * 1.1)) ∧
      (0.1 ≤ (convergence gainHalfState).1.gain ∧
        (convergence gainHalfState).1.gain ≤ 0.8)) :=
  ⟨⟨by norm_num [gainHalfState, zeroState], by norm_num [gainHalfState, zeroState]⟩,
    convergence_gain_law gainHalfState
      (by norm_num [gainHalfState, zeroState])
      (by norm_num [gainHalfState, zeroState])⟩

/-- The two clamping `if`s land in `[-3, 3]` whatever the solver returned. -/
theorem rclamp3_mem (x : ℝ) : -3 ≤ rclamp3 x ∧ rclamp3 x ≤ 3 := by
  simp only [rclamp3]
  split_ifs <;> constructor <;> linarith

/-- `2^y > 1` for positive exponents. -/
theorem two_rpow_sub_one_pos {y : ℝ} (hy : 0 < y) : 0 < (2 : ℝ) ^ y - 1 := by
  have h := (Real.one_lt_rpow_iff_of_pos (by norm_num : (0:ℝ) < 2)).mpr
    (Or.inl ⟨by norm_num, hy⟩)
  linarith

/-- `2^y < 1` for negative exponents. -/
theorem two_rpow_sub_one_neg {y : ℝ} (hy : y < 0) : (2 : ℝ) ^ y - 1 < 0 := by
  have h := Real.rpow_lt_one_of_one_lt_of_neg (by norm_num : (1:ℝ) < 2) hy
  linarith

/-- On the band `[1, 2]` with target mean 3/2, the slope residual is
positive at 40.1: the analytic mean at a large slope approaches 2. -/
theorem sim_alpha_residual_pos_right :
    0 < sim_alpha_func 1 2 (3 / 2) 40.1 := by
  simp only [sim_alpha_func, Real.one_rpow]
  have h2 : (2:ℝ) ^ (40.1 + 2 : ℝ) = 2 * (2:ℝ) ^ (40.1 + 1 : ℝ) := by
    rw [show (40.1 + 2 : ℝ) = (40.1 + 1) + 1 by norm_num,
      Real.rpow_add (by norm_num), Real.rpow_one]
    ring
  rw [h2]
  have hw1 : (1:ℝ) < (2:ℝ) ^ (40.1 + 1 : ℝ) :=
    (Real.one_lt_rpow_iff_of_pos (by norm_num)).mpr
      (Or.inl ⟨by norm_num, by norm_num⟩)
  set w := (2:ℝ) ^ (40.1 + 1 : ℝ) with hw
  have hwpos : 0 < w - 1 := by linarith
  have hratio : 2 < (2 * w - 1) / (w - 1) := by
    rw [lt_div_iff₀ hwpos]
    linarith
  have hcoef : (0:ℝ) < (40.1 + 1) / (40.1 + 2) := by norm_num
  have hmul : ((40.1 + 1) / (40.1 + 2) : ℝ) * 2 <
      ((40.1 + 1) / (40.1 + 2)) * ((2 * w - 1) / (w - 1)) :=
    mul_lt_mul_of_pos_left hratio hcoef
  have hnum : (3/2 : ℝ) < ((40.1 + 1) / (40.1 + 2)) * 2 := by norm_num
  linarith

/-- On the band `[1, 2]` with target mean 3/2, the slope residual is
negative at −20.1: the analytic mean at a very negative slope approaches
1. -/
theorem sim_alpha_residual_neg_left :
    sim_alpha_func 1 2 (3 / 2) (-20.1) < 0 := by
  simp only [sim_alpha_func, Real.one_rpow]
  have hu0 : (0:ℝ) < (2:ℝ) ^ (-20.1 + 2 : ℝ) :=
    Real.rpow_pos_of_pos (by norm_num) _
  have hu1 : (2:ℝ) ^ (-20.1 + 2 : ℝ) < 1 :=
    Real.rpow_lt_one_of_one_lt_of_neg (by norm_num) (by norm_num)
  have hv0 : (0:ℝ) < (2:ℝ) ^ (-20.1 + 1 : ℝ) :=
    Real.rpow_pos_of_pos (by norm_num) _
  have hv1 : (2:ℝ) ^ (-20.1 + 1 : ℝ) < 1 / 524288 := by
    have hlt : (2:ℝ) ^ (-20.1 + 1 : ℝ) < (2:ℝ) ^ ((-19 : ℤ) : ℝ) :=
      (Real.rpow_lt_rpow_left_iff (by norm_num)).mpr (by push_cast; norm_num)
    rwa [Real.rpow_intCast,
      show ((2:ℝ) ^ (-19 : ℤ)) = 1 / 524288 by norm_num] at hlt
  set u := (2:ℝ) ^ (-20.1 + 2 : ℝ) with hu
  set v := (2:ℝ) ^ (-20.1 + 1 : ℝ) with hv
  have hflip : ((u - 1) / (v - 1) : ℝ) = (1 - u) / (1 - v) := by
    rw [show u - 1 = -(1 - u) by ring, show v - 1 = -(1 - v) by ring,
      neg_div_neg_eq]
  have hdenpos : (0:ℝ) < 1 - v := by linarith
  have hub1 : ((1 - u) / (1 - v) : ℝ) < 1 / (1 - v) :=
    (div_lt_div_iff_of_pos_right hdenpos).mpr (by linarith)
  have hub2 : (1 / (1 - v) : ℝ) < 524288 / 524287 := by
    have h1 := one_div_lt_one_div_of_lt
      (by norm_num : (0:ℝ) < 524287 / 524288) (by linarith : (524287 / 524288 : ℝ) < 1 - v)
    calc (1 / (1 - v) : ℝ) < 1 / (524287 / 524288) := h1
      _ = 524288 / 524287 := by norm_num
  have hq : ((1 - u) / (1 - v) : ℝ) < 524288 / 524287 := lt_trans hub1 hub2
  have hcoef : ((-20.1 + 1) / (-20.1 + 2) : ℝ) = 19.1 / 18.1 := by norm_num
  rw [hflip, hcoef]
  have hfin : (19.1 / 18.1 : ℝ) * ((1 - u) / (1 - v)) <
      19.1 / 18.1 * (524288 / 524287) :=
    mul_lt_mul_of_pos_left hq (by norm_num)
  have hnum : (19.1 / 18.1 : ℝ) * (524288 / 524287) < 3 / 2 := by norm_num
  linarith

/-- The empty-band behaviour of one fitter pass, shared by the C4 theorems:
whenever `fit_band` on a photonless band returns, the band weight ends at 0
and the band slope ends at the clamped solver output for the coarse-band
residual (target mean `ave_freq`) — not at its previous value.  The
hypotheses are the spec contracts of the externals: the weight normalisation
vanishes at `j = 0` and a zero weight passes `sane_check`. -/
theorem fit_band_empty_core (E : Ext) (B : BandTable) (s : PState) (nx : ℕ)
    (h0 : s.nxtot nx = 0)
    (hw : ∀ a n1 n2 : ℝ, E.sim_w_fn 0 1 1 a n1 n2 = 0)
    (hs : E.sane_check 0 = false) (s2 : PState)
    (h2 : fit_band E B s nx = some s2) :
    s2.sim_w nx = 0 ∧
      ∃ kr : ℝ, s2.sim_alpha nx = rclamp3 (E.zbrent
        (sim_alpha_func B.xband_f1_0 B.xband_f2_last s.ave_freq)
        (s.sim_alpha nx - 0.1 - kr) (s.sim_alpha nx + 0.1 + kr)
        0.00001) := by
  simp only [fit_band, h0, if_true, eq_self_iff_true] at h2
  simp only [fit_band_with, zero_mul, hw, hs, Bool.false_eq_true,
    if_false] at h2
  rcases Classical.em (∃ k : ℕ,
      sim_alpha_func B.xband_f1_0 B.xband_f2_last s.ave_freq
          (s.sim_alpha nx - 0.1 - k) *
        sim_alpha_func B.xband_f1_0 B.xband_f2_last s.ave_freq
          (s.sim_alpha nx + 0.1 + k) ≤ 0) with hex | hex
  · rw [dif_pos hex] at h2
    simp only [Option.some.injEq] at h2
    subst h2
    constructor
    · simp [Function.update_same]
    · exact ⟨((Nat.find hex : ℕ) : ℝ), by simp [Function.update_same]⟩
  · rw [dif_neg hex] at h2
    exact Option.noConfusion h2

/-- C4 (counterexample): a cell whose band 0 is empty (`nxtot[0] = 0`) with
stored slope 10 and total mean frequency 3/2, fitted against the coarse band
`[1, 2]` with the spec-modelled solver, weight and sanity check: the fit
returns, and the new `sim_alpha[0]` is the clamped solver output in
`[−3, 3]`, not the previous value 10 — the claim's "sim_alpha[b] equal to
the value it had before the fit" is false. -/
theorem fit_band_refits_alpha_cex :
    ∃ s2, fit_band extStatusOne bandOneTwo emptyBandState 0 = some s2 ∧
      s2.sim_alpha 0 ≠ 10 ∧ emptyBandState.sim_alpha 0 = 10 := by
  have h30a : (10:ℝ) - 0.1 - ((30:ℕ):ℝ) = -20.1 := by push_cast; norm_num
  have h30b : (10:ℝ) + 0.1 + ((30:ℕ):ℝ) = 40.1 := by push_cast; norm_num
  have hex : ∃ k : ℕ,
      sim_alpha_func 1 2 (3 / 2) ((10:ℝ) - 0.1 - k) *
        sim_alpha_func 1 2 (3 / 2) ((10:ℝ) + 0.1 + k) ≤ 0 := by
    refine ⟨30, ?_⟩
    rw [h30a, h30b]
    exact le_of_lt (mul_neg_of_neg_of_pos sim_alpha_residual_neg_left
      sim_alpha_residual_pos_right)
  rcases hfb : fit_band extStatusOne bandOneTwo emptyBandState 0 with _ | s2
  · exfalso
    simp only [fit_band, fit_band_with, emptyBandState, zeroState, bandOneTwo,
      extStatusOne, if_true, eq_self_iff_true] at hfb
    rw [dif_pos hex] at hfb
    split at hfb <;> exact Option.noConfusion hfb
  · have hcore := fit_band_empty_core extStatusOne bandOneTwo emptyBandState 0
      rfl (fun a n1 n2 => by simp [extStatusOne, sim_w_model]) rfl s2 hfb
    refine ⟨s2, rfl, ?_, rfl⟩
    obtain ⟨kr, hk⟩ := hcore.2
    have hmem := rclamp3_mem (extStatusOne.zbrent
      (sim_alpha_func bandOneTwo.xband_f1_0 bandOneTwo.xband_f2_last
        emptyBandState.ave_freq)
      (emptyBandState.sim_alpha 0 - 0.1 - kr)
      (emptyBandState.sim_alpha 0 + 0.1 + kr) 0.00001)
    rw [hk]
    intro hcontra
    rw [hcontra] at hmem
    linarith [hmem.2]

/-- C4 (amended): for every band `b` with `nxtot[b] = 0`, after the fit the
cell has `sim_w[b] = 0`, but `sim_alpha[b]` is re-fitted rather than kept:
the empty-band branch falls through to the common fitting path with the
coarse band and the cell's total `ave_freq` as target, and (the weight 0
being finite) commits the clamped solver output to `sim_alpha[b]`. -/
theorem fit_band_empty_band (E : Ext) (B : BandTable) (s : PState) (nx : ℕ)
    (h0 : s.nxtot nx = 0)
    (hw : ∀ a n1 n2 : ℝ, E.sim_w_fn 0 1 1 a n1 n2 = 0)
    (hs : E.sane_check 0 = false) :
    ∀ s2, fit_band E B s nx = some s2 →
      s2.sim_w nx = 0 ∧
        ∃ kr : ℝ, s2.sim_alpha nx = rclamp3 (E.zbrent
          (sim_alpha_func B.xband_f1_0 B.xband_f2_last s.ave_freq)
          (s.sim_alpha nx - 0.1 - kr) (s.sim_alpha nx + 0.1 + kr)
          0.00001) :=
  fun s2 h2 => fit_band_empty_core E B s nx h0 hw hs s2 h2

/-- C4 (witness): the amended empty-band law applied at the concrete inputs
of the counterexample (empty band 0, coarse band `[1, 2]`, spec-modelled
externals). -/
theorem fit_band_empty_band_witness :
    (emptyBandState.nxtot 0 = 0) ∧
    (∀ a n1 n2 : ℝ, extStatusOne.sim_w_fn 0 1 1 a n1 n2 = 0) ∧
    (extStatusOne.sane_check 0 = false) ∧
    (∀ s2, fit_band extStatusOne bandOneTwo emptyBandState 0 = some s2 →
      s2.sim_w 0 = 0 ∧
        ∃ kr : ℝ, s2.sim_alpha 0 = rclamp3 (extStatusOne.zbrent
          (sim_alpha_func bandOneTwo.xband_f1_0 bandOneTwo.xband_f2_last
            emptyBandState.ave_freq)
          (emptyBandState.sim_alpha 0 - 0.1 - kr)
          (emptyBandState.sim_alpha 0 + 0.1 + kr) 0.00001)) :=
  ⟨rfl, fun a n1 n2 => by simp [extStatusOne, sim_w_model], rfl,
    fit_band_empty_band extStatusOne bandOneTwo emptyBandState 0 rfl
      (fun a n1 n2 => by simp [extStatusOne, sim_w_model]) rfl⟩

/-- Ratio of two linear shifts tends to 1 at infinity. -/
theorem tendsto_linear_ratio (a b : ℝ) :
    Filter.Tendsto (fun y : ℝ => (y + a) / (y + b)) Filter.atTop (nhds 1) := by
  have hden : Filter.Tendsto (fun y : ℝ => y + b) Filter.atTop Filter.atTop :=
    Filter.tendsto_atTop_add_const_right _ b Filter.tendsto_id
  have hsmall : Filter.Tendsto (fun y : ℝ => (a - b) / (y + b)) Filter.atTop
      (nhds 0) := tendsto_const_nhds.div_atTop hden
  have hbase : Filter.Tendsto (fun y : ℝ => 1 + (a - b) / (y + b))
      Filter.atTop (nhds (1 + 0)) := tendsto_const_nhds.add hsmall
  rw [add_zero] at hbase
  refine hbase.congr' ?_
  filter_upwards [Filter.eventually_gt_atTop (-b)] with y hy
  have hne : y + b ≠ 0 := by intro h; linarith
  field_simp

/-- For a base above 1, `t^x → ∞` as the exponent `x → ∞`. -/
theorem tendsto_rpow_exponent_atTop {t : ℝ} (ht : 1 < t) :
    Filter.Tendsto (fun x : ℝ => t ^ x) Filter.atTop Filter.atTop := by
  have h0 : (0:ℝ) < t := lt_trans one_pos ht
  have hcomp := Real.tendsto_exp_atTop.comp
    (Filter.Tendsto.const_mul_atTop (Real.log_pos ht) Filter.tendsto_id)
  exact hcomp.congr (fun x => (Real.rpow_def_of_pos h0 x).symm)

/-- For a base above 1, `t^x → 0` as the exponent `x → −∞`. -/
theorem tendsto_rpow_exponent_atBot {t : ℝ} (ht : 1 < t) :
    Filter.Tendsto (fun x : ℝ => t ^ x) Filter.atBot (nhds 0) := by
  have h0 : (0:ℝ) < t := lt_trans one_pos ht
  have hcomp := Real.tendsto_exp_atBot.comp
    (Filter.Tendsto.const_mul_atBot (Real.log_pos ht) Filter.tendsto_id)
  exact hcomp.congr (fun x => (Real.rpow_def_of_pos h0 x).symm)

/-- The residual in factored form: with `t = numax/numin`, the band powers
collapse to powers of `t` and one factor `numin`.  Valid for every slope
(the singular slopes yield the same division-by-zero junk values on both
sides). -/
theorem sim_alpha_func_factored (numin numax mf : ℝ) (h1 : 0 < numin)
    (h2 : numin < numax) (a : ℝ) :
    sim_alpha_func numin numax mf a =
      ((a + 1) / (a + 2)) *
        (numin * ((numax / numin * (numax / numin) ^ (a + 1) - 1) /
          ((numax / numin) ^ (a + 1) - 1))) - mf := by
  have h0max : (0:ℝ) ≤ numax := le_of_lt (lt_trans h1 h2)
  have hne : numin ^ (a + 1) ≠ 0 := ne_of_gt (Real.rpow_pos_of_pos h1 _)
  have hfac : ∀ x : ℝ, numax ^ x - numin ^ x =
      numin ^ x * ((numax / numin) ^ x - 1) := by
    intro x
    rw [Real.div_rpow h0max (le_of_lt h1), mul_sub, mul_one,
      ← mul_div_assoc, mul_div_cancel_left₀ _
        (ne_of_gt (Real.rpow_pos_of_pos h1 x))]
  have hsplit2 : numin ^ (a + 2) = numin ^ (a + 1) * numin := by
    rw [show a + 2 = a + 1 + 1 by ring, Real.rpow_add h1, Real.rpow_one]
  have hsplitT : (numax / numin) ^ (a + 2) =
      numax / numin * (numax / numin) ^ (a + 1) := by
    rw [show a + 2 = a + 1 + 1 by ring,
      Real.rpow_add (div_pos (lt_trans h1 h2) h1), Real.rpow_one, mul_comm]
  simp only [sim_alpha_func]
  rw [hfac (a + 2), hfac (a + 1), hsplit2, hsplitT]
  rw [show numin ^ (a + 1) * numin *
        (numax / numin * (numax / numin) ^ (a + 1) - 1) =
      numin ^ (a + 1) *
        (numin * (numax / numin * (numax / numin) ^ (a + 1) - 1)) by ring,
    mul_div_mul_left _ _ hne, mul_div_assoc]

/-- As the trial slope grows, the residual tends to `numax − mf`: the
analytic mean of a steep power law concentrates at the upper band edge. -/
theorem sim_alpha_func_tendsto_atTop (numin numax mf : ℝ) (h1 : 0 < numin)
    (h2 : numin < numax) :
    Filter.Tendsto (fun x : ℝ => sim_alpha_func numin numax mf x)
      Filter.atTop (nhds (numax - mf)) := by
  have ht : 1 < numax / numin := (one_lt_div h1).mpr h2
  have hy : Filter.Tendsto (fun x : ℝ => (numax / numin) ^ (x + 1))
      Filter.atTop Filter.atTop :=
    (tendsto_rpow_exponent_atTop ht).comp
      (Filter.tendsto_atTop_add_const_right _ 1 Filter.tendsto_id)
  have hden : Filter.Tendsto (fun x : ℝ => (numax / numin) ^ (x + 1) - 1)
      Filter.atTop Filter.atTop := by
    have h := Filter.tendsto_atTop_add_const_right _ (-1) hy
    exact h.congr (fun x => by ring)
  have hsmall : Filter.Tendsto
      (fun x : ℝ => (numax / numin - 1) / ((numax / numin) ^ (x + 1) - 1))
      Filter.atTop (nhds 0) := tendsto_const_nhds.div_atTop hden
  have hbase : Filter.Tendsto
      (fun x : ℝ => numax / numin +
        (numax / numin - 1) / ((numax / numin) ^ (x + 1) - 1))
      Filter.atTop (nhds (numax / numin + 0)) := tendsto_const_nhds.add hsmall
  rw [add_zero] at hbase
  have hratio : Filter.Tendsto
      (fun x : ℝ => (numax / numin * (numax / numin) ^ (x + 1) - 1) /
        ((numax / numin) ^ (x + 1) - 1))
      Filter.atTop (nhds (numax / numin)) := by
    refine hbase.congr' ?_
    filter_upwards [hy.eventually_gt_atTop 1] with x hx
    have hne : (numax / numin) ^ (x + 1) - 1 ≠ 0 := ne_of_gt (by linarith)
    field_simp
    ring
  have hcoef : Filter.Tendsto (fun x : ℝ => (x + 1) / (x + 2))
      Filter.atTop (nhds 1) := tendsto_linear_ratio 1 2
  have hfull := (hcoef.mul ((tendsto_const_nhds (x := numin)).mul hratio)).sub
    (tendsto_const_nhds (x := mf))
  have hval : 1 * (numin * (numax / numin)) - mf = numax - mf := by
    field_simp
  rw [hval] at hfull
  exact hfull.congr
    (fun x => (sim_alpha_func_factored numin numax mf h1 h2 x).symm)

/-- As the trial slope falls, the residual tends to `numin − mf`: the
analytic mean of a steeply falling power law concentrates at the lower band
edge. -/
theorem sim_alpha_func_tendsto_atBot (numin numax mf : ℝ) (h1 : 0 < numin)
    (h2 : numin < numax) :
    Filter.Tendsto (fun x : ℝ => sim_alpha_func numin numax mf x)
      Filter.atBot (nhds (numin - mf)) := by
  have ht : 1 < numax / numin := (one_lt_div h1).mpr h2
  have hy : Filter.Tendsto (fun x : ℝ => (numax / numin) ^ (x + 1))
      Filter.atBot (nhds 0) :=
    (tendsto_rpow_exponent_atBot ht).comp
      (Filter.tendsto_atBot_add_const_right _ 1 Filter.tendsto_id)
  have hnum : Filter.Tendsto
      (fun x : ℝ => numax / numin * (numax / numin) ^ (x + 1) - 1)
      Filter.atBot (nhds (-1)) := by
    have h := (hy.const_mul (numax / numin)).sub (tendsto_const_nhds (x := (1:ℝ)))
    simpa using h
  have hden : Filter.Tendsto (fun x : ℝ => (numax / numin) ^ (x + 1) - 1)
      Filter.atBot (nhds (-1)) := by
    have h := hy.sub (tendsto_const_nhds (x := (1:ℝ)))
    simpa using h
  have hratio := hnum.div hden (by norm_num : (-1 : ℝ) ≠ 0)
  rw [show ((-1 : ℝ)) / (-1) = 1 by norm_num] at hratio
  have hcoef : Filter.Tendsto (fun x : ℝ => (x + 1) / (x + 2))
      Filter.atBot (nhds 1) := by
    have h := (tendsto_linear_ratio (-1) (-2)).comp
      (Filter.tendsto_neg_atBot_atTop (β := ℝ))
    refine h.congr (fun x => ?_)
    show (-x + -1) / (-x + -2) = (x + 1) / (x + 2)
    rw [show (-x + -1 : ℝ) = -(x + 1) by ring,
      show (-x + -2 : ℝ) = -(x + 2) by ring, neg_div_neg_eq]
  have hfull := (hcoef.mul ((tendsto_const_nhds (x := numin)).mul hratio)).sub
    (tendsto_const_nhds (x := mf))
  have hval : 1 * (numin * 1) - mf = numin - mf := by ring
  rw [hval] at hfull
  exact hfull.congr
    (fun x => (sim_alpha_func_factored numin numax mf h1 h2 x).symm)

/-- C10 (amended): the bracket-widening loop terminates for every starting
slope and every band `0 < numin < numax`, provided the observed mean
frequency lies strictly inside `(numin, numax)`: far enough out, the
residual is negative at the left endpoint and positive at the right one. -/
theorem bracket_terminates_of_target_in_band (numin numax mf alpha0 : ℝ)
    (h1 : 0 < numin) (h2 : numin < numax) (h3 : numin < mf) (h4 : mf < numax) :
    bracket_terminates numin numax mf alpha0 := by
  have hup : Filter.Tendsto (fun k : ℕ => alpha0 - 0.1 + 0 + (k : ℝ))
      Filter.atTop Filter.atTop :=
    Filter.tendsto_atTop_add_const_left _ _ tendsto_natCast_atTop_atTop
  have hup2 : Filter.Tendsto (fun k : ℕ => alpha0 + 0.1 + (k : ℝ))
      Filter.atTop Filter.atTop :=
    Filter.tendsto_atTop_add_const_left _ _ tendsto_natCast_atTop_atTop
  have hdown : Filter.Tendsto (fun k : ℕ => alpha0 - 0.1 - (k : ℝ))
      Filter.atTop Filter.atBot := by
    have h := Filter.tendsto_atBot_add_const_left _ (alpha0 - 0.1)
      ((Filter.tendsto_neg_atTop_atBot (β := ℝ)).comp tendsto_natCast_atTop_atTop)
    exact h.congr (fun k => by simp only [Function.comp_apply]; ring)
  have hposT := (sim_alpha_func_tendsto_atTop numin numax mf h1 h2).comp hup2
  have hnegT := (sim_alpha_func_tendsto_atBot numin numax mf h1 h2).comp hdown
  have hpos : ∀ᶠ k : ℕ in Filter.atTop,
      0 < sim_alpha_func numin numax mf (alpha0 + 0.1 + k) :=
    hposT.eventually (eventually_gt_nhds (by linarith))
  have hneg : ∀ᶠ k : ℕ in Filter.atTop,
      sim_alpha_func numin numax mf (alpha0 - 0.1 - k) < 0 :=
    hnegT.eventually (eventually_lt_nhds (by linarith))
  obtain ⟨k, hk1, hk2⟩ := (hpos.and hneg).exists
  exact ⟨k, le_of_lt (mul_neg_of_neg_of_pos hk2 hk1)⟩

/-- C10 (witness): the widening loop terminates on the band `[1, 2]` with
observed mean 3/2 from starting slope 0. -/
theorem bracket_terminates_witness :
    ((0:ℝ) < 1 ∧ (1:ℝ) < 2 ∧ (1:ℝ) < 3/2 ∧ (3/2:ℝ) < 2) ∧
      bracket_terminates 1 2 (3/2) 0 :=
  ⟨⟨by norm_num, by norm_num, by norm_num, by norm_num⟩,
    bracket_terminates_of_target_in_band 1 2 (3/2) 0 (by norm_num)
      (by norm_num) (by norm_num) (by norm_num)⟩

/-- With target mean 0, the residual on `[1, 2]` is positive right of −1:
every factor of the product is positive. -/
theorem sim_alpha_func0_pos_right {a : ℝ} (ha : -1 < a) :
    0 < sim_alpha_func 1 2 0 a := by
  simp only [sim_alpha_func, Real.one_rpow, sub_zero]
  exact mul_pos (div_pos (by linarith) (by linarith))
    (div_pos (two_rpow_sub_one_pos (by linarith))
      (two_rpow_sub_one_pos (by linarith)))

/-- With target mean 0, the residual on `[1, 2]` is positive between −2 and
−1: both factors are negative. -/
theorem sim_alpha_func0_pos_mid {a : ℝ} (ha1 : -2 < a) (ha2 : a < -1) :
    0 < sim_alpha_func 1 2 0 a := by
  simp only [sim_alpha_func, Real.one_rpow, sub_zero]
  exact mul_pos_of_neg_of_neg
    (div_neg_of_neg_of_pos (by linarith) (by linarith))
    (div_neg_of_pos_of_neg (two_rpow_sub_one_pos (by linarith))
      (two_rpow_sub_one_neg (by linarith)))

/-- With target mean 0, the residual on `[1, 2]` is positive left of −2:
numerators and denominators are negative throughout. -/
theorem sim_alpha_func0_pos_left {a : ℝ} (ha : a < -2) :
    0 < sim_alpha_func 1 2 0 a := by
  simp only [sim_alpha_func, Real.one_rpow, sub_zero]
  exact mul_pos (div_pos_of_neg_of_neg (by linarith) (by linarith))
    (div_pos_of_neg_of_neg (two_rpow_sub_one_neg (by linarith))
      (two_rpow_sub_one_neg (by linarith)))

/-- C10 (counterexample): the claim asserts termination for any observed
mean frequency, but with band `[1, 2]`, observed mean 0 (below the band)
and starting slope 0, the residual is strictly positive at every endpoint
pair the loop ever tests (the endpoints `−0.1−k`, `0.1+k` never hit the
singular slopes −1, −2), so the product never becomes nonpositive and the
`while` loop never exits. -/
theorem bracket_widening_diverges_cex : bracket_terminates 1 2 0 0 ↔ False := by
  simp only [iff_false]
  rintro ⟨k, hk⟩
  have hkc : (0:ℝ) ≤ (k : ℝ) := Nat.cast_nonneg k
  have hb : 0 < sim_alpha_func 1 2 0 ((0:ℝ) + 0.1 + k) :=
    sim_alpha_func0_pos_right (by linarith)
  have ha : 0 < sim_alpha_func 1 2 0 ((0:ℝ) - 0.1 - k) := by
    match k with
    | 0 => exact sim_alpha_func0_pos_right (by norm_num)
    | 1 => exact sim_alpha_func0_pos_mid (by norm_num) (by norm_num)
    | (m + 2) =>
        refine sim_alpha_func0_pos_left ?_
        have hm : (0:ℝ) ≤ (m : ℝ) := Nat.cast_nonneg m
        push_cast
        linarith
  nlinarith [mul_pos ha hb]

/-- A value passes `sane_check` exactly when it is finite. -/
theorem sane_check_fp_false_iff (w : FP) :
    sane_check_fp w = false ↔ w.isFinite = true := by
  cases w <;> simp [sane_check_fp, FP.isFinite]

/-- The clamp leaves only finite values or NaN: each infinity is caught by
one of the two comparisons. -/
theorem fp_clamp3_nan_or_finite (a : FP) :
    fp_clamp3 a = FP.nan ∨ (fp_clamp3 a).isFinite = true := by
  cases a with
  | fin x =>
      right
      simp only [fp_clamp3]
      split_ifs <;> rfl
  | pinf => right; decide
  | minf => right; decide
  | nan => left; rfl

/-- C5: in the fitter's commit step, the candidate pair (clamped slope,
weight) is committed to `(sim_alpha[b], sim_w[b])` iff both values are
finite; when either is non-finite both fields keep their previous values.
The hypothesis is NaN propagation through the external `sim_w`: a NaN slope
yields a NaN weight (the code checks `sane_check` only on the weight, which
suffices because the clamp maps each infinity to ±3 and a NaN slope
contaminates the weight). -/
theorem commit_band_iff_finite (simw : FP → FP)
    (hprop : simw FP.nan = FP.nan) (alpha0 w0 araw : FP) :
    (sane_check_fp (simw (fp_clamp3 araw)) = false ↔
      ((fp_clamp3 araw).isFinite = true ∧
        (simw (fp_clamp3 araw)).isFinite = true)) ∧
    (((fp_clamp3 araw).isFinite = true ∧
        (simw (fp_clamp3 araw)).isFinite = true) →
      commit_band simw alpha0 w0 araw =
        (fp_clamp3 araw, simw (fp_clamp3 araw))) ∧
    (¬((fp_clamp3 araw).isFinite = true ∧
        (simw (fp_clamp3 araw)).isFinite = true) →
      commit_band simw alpha0 w0 araw = (alpha0, w0)) := by
  have hiff : sane_check_fp (simw (fp_clamp3 araw)) = false ↔
      ((fp_clamp3 araw).isFinite = true ∧
        (simw (fp_clamp3 araw)).isFinite = true) := by
    rw [sane_check_fp_false_iff]
    constructor
    · intro hw
      refine ⟨?_, hw⟩
      rcases fp_clamp3_nan_or_finite araw with hn | hf
      · rw [hn, hprop] at hw
        exact absurd hw (by decide)
      · exact hf
    · exact fun h => h.2
  refine ⟨hiff, ?_, ?_⟩
  · intro h
    have hs : sane_check_fp (simw (fp_clamp3 araw)) = false := hiff.mpr h
    simp [commit_band, hs]
  · intro h
    have hs : sane_check_fp (simw (fp_clamp3 araw)) = true := by
      rcases Bool.eq_false_or_eq_true
          (sane_check_fp (simw (fp_clamp3 araw))) with ht | hf
      · exact ht
      · exact absurd (hiff.mp hf) h
    simp [commit_band, hs]

/-- C5 (witness): the commit law with the identity weight function (which
propagates NaN) at the finite candidate slope 5, previous pair (0, 1). -/
theorem commit_band_iff_finite_witness :
    ((fun a : FP => a) FP.nan = FP.nan) ∧
    ((sane_check_fp ((fun a : FP => a) (fp_clamp3 (FP.fin 5))) = false ↔
      ((fp_clamp3 (FP.fin 5)).isFinite = true ∧
        ((fun a : FP => a) (fp_clamp3 (FP.fin 5))).isFinite = true)) ∧
    (((fp_clamp3 (FP.fin 5)).isFinite = true ∧
        ((fun a : FP => a) (fp_clamp3 (FP.fin 5))).isFinite = true) →
      commit_band (fun a : FP => a) (FP.fin 0) (FP.fin 1) (FP.fin 5) =
        (fp_clamp3 (FP.fin 5), (fun a : FP => a) (fp_clamp3 (FP.fin 5)))) ∧
    (¬((fp_clamp3 (FP.fin 5)).isFinite = true ∧
        ((fun a : FP => a) (fp_clamp3 (FP.fin 5))).isFinite = true) →
      commit_band (fun a : FP => a) (FP.fin 0) (FP.fin 1) (FP.fin 5) =
        (FP.fin 0, FP.fin 1))) :=
  ⟨rfl, commit_band_iff_finite (fun a => a) rfl (FP.fin 0) (FP.fin 1)
    (FP.fin 5)⟩

/-- The remainder computed by `get_parallel_nrange` is `ntotal % nproc`. -/
theorem extra_eq_mod (ntotal nproc : ℕ) :
    ntotal - nproc * (ntotal / nproc) = ntotal % nproc := by
  have h := Nat.div_add_mod ntotal nproc
  omega

/-- The left endpoint produced for rank `r` matches the ladder `nminF`. -/
theorem rank_range_nmin (ntotal nproc r : ℕ) :
    (rank_range ntotal nproc r).my_nmin = nminF ntotal nproc r := by
  simp only [rank_range, get_parallel_nrange, nminF, extra_eq_mod]

/-- The right endpoint produced for rank `r` is the next rung of the
ladder. -/
theorem rank_range_nmax (ntotal nproc r : ℕ) :
    (rank_range ntotal nproc r).my_nmax = nminF ntotal nproc (r + 1) := by
  simp only [rank_range, get_parallel_nrange, nminF, extra_eq_mod]
  rcases Nat.lt_or_ge r (ntotal % nproc) with h1 | h1
  · rw [if_pos h1]
    rcases Nat.lt_or_ge (r + 1) (ntotal % nproc) with h2 | h2
    · rw [if_pos h2]
    · have h2n : ¬(r + 1 < ntotal % nproc) := by omega
      have h3 : r + 1 = ntotal % nproc := by omega
      rw [if_neg h2n, ← h3, Nat.sub_self, Nat.zero_mul]
      omega
  · have h1n : ¬(r < ntotal % nproc) := by omega
    have h2n : ¬(r + 1 < ntotal % nproc) := by omega
    rw [if_neg h1n, if_neg h2n,
      show r + 1 - ntotal % nproc = (r - ntotal % nproc) + 1 by omega]

/-- One rung of the ladder: rank `r`'s range has `q+1` cells while `r` is
below the remainder, and `q` cells afterwards. -/
theorem nminF_succ (ntotal nproc r : ℕ) :
    nminF ntotal nproc (r + 1) =
      nminF ntotal nproc r +
        (if r < ntotal % nproc then ntotal / nproc + 1 else ntotal / nproc) := by
  simp only [nminF]
  rcases Nat.lt_or_ge r (ntotal % nproc) with h1 | h1
  · rw [if_pos h1, if_pos h1]
    rcases Nat.lt_or_ge (r + 1) (ntotal % nproc) with h2 | h2
    · rw [if_pos h2]
      ring
    · have h2n : ¬(r + 1 < ntotal % nproc) := by omega
      have h3 : r + 1 = ntotal % nproc := by omega
      rw [if_neg h2n, ← h3, Nat.sub_self, Nat.zero_mul, Nat.add_zero]
      ring
  · have h1n : ¬(r < ntotal % nproc) := by omega
    have h2n : ¬(r + 1 < ntotal % nproc) := by omega
    rw [if_neg h1n, if_neg h1n, if_neg h2n,
      show r + 1 - ntotal % nproc = (r - ntotal % nproc) + 1 by omega]
    ring

/-- The ladder is monotone. -/
theorem nminF_mono (ntotal nproc : ℕ) {r1 r2 : ℕ} (h : r1 ≤ r2) :
    nminF ntotal nproc r1 ≤ nminF ntotal nproc r2 := by
  induction r2 with
  | zero => simp [Nat.le_zero.mp h]
  | succ n ih =>
      rcases Nat.lt_or_ge r1 (n + 1) with h2 | h2
      · calc nminF ntotal nproc r1 ≤ nminF ntotal nproc n := ih (by omega)
          _ ≤ nminF ntotal nproc (n + 1) := by rw [nminF_succ]; omega
      · have h3 : r1 = n + 1 := by omega
        rw [h3]

/-- The ladder starts at 0. -/
theorem nminF_zero (ntotal nproc : ℕ) : nminF ntotal nproc 0 = 0 := by
  simp only [nminF]
  split_ifs with h1
  · exact Nat.zero_mul _
  · have h2 : ntotal % nproc = 0 := by omega
    simp [h2]

/-- The ladder ends at `ntotal`: rung `nproc` is the total task count. -/
theorem nminF_top (ntotal nproc : ℕ) (hp : 1 ≤ nproc) :
    nminF ntotal nproc nproc = ntotal := by
  have hs : ntotal % nproc < nproc := Nat.mod_lt _ (by omega)
  have key : nproc * (ntotal / nproc) + ntotal % nproc = ntotal :=
    Nat.div_add_mod ntotal nproc
  simp only [nminF, if_neg (by omega : ¬nproc < ntotal % nproc)]
  have h1 : (nproc - ntotal % nproc) * (ntotal / nproc) =
      nproc * (ntotal / nproc) - ntotal % nproc * (ntotal / nproc) :=
    Nat.sub_mul _ _ _
  have h2 : ntotal % nproc * (ntotal / nproc) ≤ nproc * (ntotal / nproc) :=
    Nat.mul_le_mul_right _ (le_of_lt hs)
  have h3 : ntotal % nproc * (ntotal / nproc + 1) =
      ntotal % nproc * (ntotal / nproc) + ntotal % nproc := by ring
  omega

/-- C7: for every `ntotal` and every `nproc ≥ 1`, the per-rank ranges
`[my_nmin, my_nmax)` produced by `get_parallel_nrange` (each rank calling
with its own rank, as the program does) are pairwise disjoint, together
cover `[0, ntotal)`, have sizes differing by at most 1, and each size is at
most the `ceil(ntotal/nproc)` returned by `get_max_cells_per_rank`. -/
theorem get_parallel_nrange_partition (ntotal nproc : ℕ) (hp : 1 ≤ nproc) :
    (∀ r1 r2 k : ℕ, r1 < nproc → r2 < nproc → r1 ≠ r2 →
      ¬((rank_range ntotal nproc r1).my_nmin ≤ k ∧
        k < (rank_range ntotal nproc r1).my_nmax ∧
        (rank_range ntotal nproc r2).my_nmin ≤ k ∧
        k < (rank_range ntotal nproc r2).my_nmax)) ∧
    (∀ k : ℕ, k < ntotal → ∃ r : ℕ, r < nproc ∧
      (rank_range ntotal nproc r).my_nmin ≤ k ∧
      k < (rank_range ntotal nproc r).my_nmax) ∧
    (∀ r1 r2 : ℕ, r1 < nproc → r2 < nproc →
      (rank_range ntotal nproc r1).ndo ≤ (rank_range ntotal nproc r2).ndo + 1) ∧
    (∀ r : ℕ, r < nproc →
      ((rank_range ntotal nproc r).ndo : ℤ) ≤
        get_max_cells_per_rank ntotal nproc) := by
  have hndo : ∀ r : ℕ, (rank_range ntotal nproc r).ndo =
      (if r < ntotal % nproc then ntotal / nproc + 1 else ntotal / nproc) := by
    intro r
    have h1 : (rank_range ntotal nproc r).ndo =
        (rank_range ntotal nproc r).my_nmax - (rank_range ntotal nproc r).my_nmin := by
      simp only [rank_range, get_parallel_nrange]
    rw [h1, rank_range_nmax, rank_range_nmin, nminF_succ]
    omega
  refine ⟨?_, ?_, ?_, ?_⟩
  · -- disjointness
    intro r1 r2 k h1 h2 hne hk
    obtain ⟨ha1, hb1, ha2, hb2⟩ := hk
    rw [rank_range_nmin] at ha1 ha2
    rw [rank_range_nmax] at hb1 hb2
    rcases lt_or_gt_of_ne hne with h | h
    · have := nminF_mono ntotal nproc (show r1 + 1 ≤ r2 by omega)
      omega
    · have := nminF_mono ntotal nproc (show r2 + 1 ≤ r1 by omega)
      omega
  · -- coverage
    intro k hk
    have h0 : nminF ntotal nproc 0 ≤ k := by rw [nminF_zero]; omega
    have hfg : nminF ntotal nproc
        (Nat.findGreatest (fun r => nminF ntotal nproc r ≤ k) (nproc - 1)) ≤ k :=
      Nat.findGreatest_spec (P := fun r => nminF ntotal nproc r ≤ k)
        (Nat.zero_le _) h0
    have hle : Nat.findGreatest (fun r => nminF ntotal nproc r ≤ k) (nproc - 1) ≤
        nproc - 1 := Nat.findGreatest_le _
    refine ⟨Nat.findGreatest (fun r => nminF ntotal nproc r ≤ k) (nproc - 1),
      by omega, ?_, ?_⟩
    · rw [rank_range_nmin]; exact hfg
    · rw [rank_range_nmax]
      rcases Nat.lt_or_ge
        (Nat.findGreatest (fun r => nminF ntotal nproc r ≤ k) (nproc - 1) + 1)
        nproc with h | h
      · by_contra hcon
        have hP : nminF ntotal nproc
            (Nat.findGreatest (fun r => nminF ntotal nproc r ≤ k) (nproc - 1) + 1) ≤
            k := by omega
        exact Nat.findGreatest_is_greatest
          (P := fun r => nminF ntotal nproc r ≤ k) (n := nproc - 1)
          (k := Nat.findGreatest (fun r => nminF ntotal nproc r ≤ k) (nproc - 1) + 1)
          (by omega) (by omega) hP
      · have h4 : Nat.findGreatest (fun r => nminF ntotal nproc r ≤ k) (nproc - 1)
            + 1 = nproc := by omega
        rw [h4, nminF_top ntotal nproc hp]
        omega
  · -- sizes differ by at most one
    intro r1 r2 h1 h2
    rw [hndo r1, hndo r2]
    split_ifs <;> omega
  · -- size bounded by the ceiling
    intro r hr
    rw [hndo r]
    simp only [get_max_cells_per_rank]
    have hnp : (0 : ℚ) < (nproc : ℚ) := by
      exact_mod_cast Nat.lt_of_lt_of_le Nat.zero_lt_one hp
    have hc : ((ntotal / nproc : ℕ) : ℚ) ≤ (ntotal : ℚ) / (nproc : ℚ) :=
      Nat.cast_div_le
    have hq : ((ntotal / nproc : ℕ) : ℤ) ≤ ⌈(ntotal : ℚ) / (nproc : ℚ)⌉ := by
      have hceil := le_trans hc (Int.le_ceil ((ntotal : ℚ) / (nproc : ℚ)))
      have hcast : (((ntotal / nproc : ℕ) : ℤ) : ℚ) ≤
          ((⌈(ntotal : ℚ) / (nproc : ℚ)⌉ : ℤ) : ℚ) := by push_cast; exact hceil
      exact Int.cast_le.mp hcast
    split_ifs with h
    · -- q + 1 ≤ ceil: here the remainder is positive, so q < ntotal/nproc
      have key2 : ntotal / nproc * nproc + ntotal % nproc = ntotal :=
        Nat.div_add_mod' ntotal nproc
      have hlt : ((ntotal / nproc : ℕ) : ℚ) < (ntotal : ℚ) / (nproc : ℚ) := by
        rw [lt_div_iff₀ hnp]
        exact_mod_cast (show ntotal / nproc * nproc < ntotal by omega)
      have hlt2 : ((ntotal / nproc : ℕ) : ℤ) < ⌈(ntotal : ℚ) / (nproc : ℚ)⌉ := by
        rw [Int.lt_ceil]
        exact_mod_cast hlt
      push_cast
      omega
    · exact_mod_cast hq

/-- Decoding the buffer layout: the entry written for bin `i`, spectrum `j`,
array `k` is recovered at index `i*nspec + j + k*(nwave*nspec)`. -/
theorem redhelper_decode (nspec nwave p : ℕ) (x : ℕ → XSpec) (i j k : ℕ)
    (hi : i < nwave) (hj : j < nspec) (hk : k < 4) :
    redhelper nspec nwave p x (i * nspec + j + k * (nwave * nspec)) =
      (if k = 0 then (x j).f i
       else if k = 1 then (x j).lf i
       else if k = 2 then (x j).f_wind i
       else (x j).lf_wind i) / (p : ℝ) := by
  have hM : 0 < nwave * nspec := Nat.mul_pos (by omega) (by omega)
  have hsub : i * nspec + j < nwave * nspec := by
    calc i * nspec + j < i * nspec + nspec := by omega
      _ = (i + 1) * nspec := by ring
      _ ≤ nwave * nspec := Nat.mul_le_mul_right _ (by omega)
  have hidx : i * nspec + j + k * (nwave * nspec) < 4 * nwave * nspec := by
    have h3 : k * (nwave * nspec) ≤ 3 * (nwave * nspec) :=
      Nat.mul_le_mul_right _ (by omega)
    have h4 : 4 * nwave * nspec = nwave * nspec + 3 * (nwave * nspec) := by ring
    omega
  simp only [redhelper, if_pos hidx]
  rw [Nat.add_mul_div_right _ _ hM, Nat.div_eq_of_lt hsub, Nat.zero_add,
    Nat.add_mul_mod_self_right, Nat.mod_eq_of_lt hsub,
    show i * nspec + j = nspec * i + j by ring,
    Nat.mul_add_div (by omega), Nat.div_eq_of_lt hj, Nat.add_zero,
    Nat.mul_add_mod, Nat.mod_eq_of_lt hj]

/-- When all `p` ranks hold the same spectral arrays `v`, the collective
returns `v` on every rank: the pre-division by `p`, the sum reduction and
the broadcast compose to the identity. -/
theorem gather_const (nspec nwave p : ℕ) (hp : 0 < p) (v : ℕ → XSpec)
    (inp : Fin p → ℕ → XSpec) (hsame : ∀ r, inp r = v) (r : Fin p) :
    gather_extracted_spectrum nspec nwave p inp r = v := by
  have hpR : ((p : ℝ)) ≠ 0 := by
    exact_mod_cast Nat.pos_iff_ne_zero.mp hp
  have hsum : ∀ idx : ℕ,
      (∑ t : Fin p, redhelper nspec nwave p (inp t) idx) =
        redhelper nspec nwave p v idx * (p : ℝ) := by
    intro idx
    rw [Finset.sum_congr rfl (fun t _ => by rw [hsame t]), Finset.sum_const,
      Finset.card_univ, Fintype.card_fin, nsmul_eq_mul]
    ring
  funext j
  have hval : ∀ (i k : ℕ), i < nwave → j < nspec → k < 4 →
      (∑ t : Fin p, redhelper nspec nwave p (inp t)
        (i * nspec + j + k * (nwave * nspec))) =
      (if k = 0 then (v j).f i
       else if k = 1 then (v j).lf i
       else if k = 2 then (v j).f_wind i
       else (v j).lf_wind i) := by
    intro i k hi hj hk
    rw [hsum, redhelper_decode nspec nwave p v i j k hi hj hk,
      div_mul_cancel₀ _ hpR]
  apply XSpec.ext
  · funext i
    simp only [gather_extracted_spectrum]
    by_cases hij : i < nwave ∧ j < nspec
    · rw [if_pos hij,
        show i * nspec + j = i * nspec + j + 0 * (nwave * nspec) by ring,
        hval i 0 hij.1 hij.2 (by omega)]
      simp
    · rw [if_neg hij, hsame r]
  · funext i
    simp only [gather_extracted_spectrum]
    by_cases hij : i < nwave ∧ j < nspec
    · rw [if_pos hij,
        show i * nspec + j + nwave * nspec =
          i * nspec + j + 1 * (nwave * nspec) by ring,
        hval i 1 hij.1 hij.2 (by omega)]
      simp
    · rw [if_neg hij, hsame r]
  · funext i
    simp only [gather_extracted_spectrum]
    by_cases hij : i < nwave ∧ j < nspec
    · rw [if_pos hij,
        show i * nspec + j + 2 * nwave * nspec =
          i * nspec + j + 2 * (nwave * nspec) by ring,
        hval i 2 hij.1 hij.2 (by omega)]
      simp
    · rw [if_neg hij, hsame r]
  · funext i
    simp only [gather_extracted_spectrum]
    by_cases hij : i < nwave ∧ j < nspec
    · rw [if_pos hij,
        show i * nspec + j + 3 * nwave * nspec =
          i * nspec + j + 3 * (nwave * nspec) by ring,
        hval i 3 hij.1 hij.2 (by omega)]
      simp
    · rw [if_neg hij, hsame r]

/-- C8: if all `p` ranks hold identical spectral arrays (all four arrays of
every spectrum and bin), then after `gather_extracted_spectrum` every rank's
arrays equal the input, and running the exchange twice equals running it
once (exactly, in real arithmetic). -/
theorem gather_extracted_spectrum_roundtrip (nspec nwave p : ℕ) (hp : 0 < p)
    (v : ℕ → XSpec) (inp : Fin p → ℕ → XSpec) (hsame : ∀ r, inp r = v) :
    (∀ r, gather_extracted_spectrum nspec nwave p inp r = v) ∧
      gather_extracted_spectrum nspec nwave p
          (gather_extracted_spectrum nspec nwave p inp) =
        gather_extracted_spectrum nspec nwave p inp := by
  refine ⟨fun r => gather_const nspec nwave p hp v inp hsame r, ?_⟩
  funext r
  rw [gather_const nspec nwave p hp v _
      (fun t => gather_const nspec nwave p hp v inp hsame t) r,
    gather_const nspec nwave p hp v inp hsame r]

/-- C8 (witness): the round-trip law at `p = 2`, `nspec = nwave = 1`, with
both ranks holding the constant array 1. -/
theorem gather_extracted_spectrum_roundtrip_witness :
    (0 < 2) ∧
    ((∀ r : Fin 2, gather_extracted_spectrum 1 1 2
        (fun _ _ => XSpec.mk (fun _ => 1) (fun _ => 1) (fun _ => 1) (fun _ => 1)) r =
        (fun _ => XSpec.mk (fun _ => 1) (fun _ => 1) (fun _ => 1) (fun _ => 1))) ∧
      gather_extracted_spectrum 1 1 2
          (gather_extracted_spectrum 1 1 2
            (fun _ _ => XSpec.mk (fun _ => 1) (fun _ => 1) (fun _ => 1) (fun _ => 1))) =
        gather_extracted_spectrum 1 1 2
          (fun _ _ => XSpec.mk (fun _ => 1) (fun _ => 1) (fun _ => 1) (fun _ => 1))) :=
  ⟨by norm_num,
    gather_extracted_spectrum_roundtrip 1 1 2 (by norm_num)
      (fun _ => XSpec.mk (fun _ => 1) (fun _ => 1) (fun _ => 1) (fun _ => 1))
      (fun _ _ => XSpec.mk (fun _ => 1) (fun _ => 1) (fun _ => 1) (fun _ => 1))
      (fun _ => rfl)⟩

/-- C7 (witness): the partition law at `ntotal = 10`, `nproc = 3`, where the
ranges are [0,4), [4,7), [7,10) and the ceiling is 4. -/
theorem get_parallel_nrange_partition_witness :
    (1 ≤ 3) ∧
    ((∀ r1 r2 k : ℕ, r1 < 3 → r2 < 3 → r1 ≠ r2 →
      ¬((rank_range 10 3 r1).my_nmin ≤ k ∧
        k < (rank_range 10 3 r1).my_nmax ∧
        (rank_range 10 3 r2).my_nmin ≤ k ∧
        k < (rank_range 10 3 r2).my_nmax)) ∧
    (∀ k : ℕ, k < 10 → ∃ r : ℕ, r < 3 ∧
      (rank_range 10 3 r).my_nmin ≤ k ∧
      k < (rank_range 10 3 r).my_nmax) ∧
    (∀ r1 r2 : ℕ, r1 < 3 → r2 < 3 →
      (rank_range 10 3 r1).ndo ≤ (rank_range 10 3 r2).ndo + 1) ∧
    (∀ r : ℕ, r < 3 →
      ((rank_range 10 3 r).ndo : ℤ) ≤ get_max_cells_per_rank 10 3)) :=
  ⟨by norm_num, get_parallel_nrange_partition 10 3 (by norm_num)⟩

end IonVerify
